import Mathlib

/-!
# Verification of `mindvc`'s mark-and-sweep garbage collector and fs helpers

Shallow embedding of:
* `src/mindvc/data/hashfile/gc.py` (`gc`): mark-and-sweep over a
  content-addressable object database (ODB);
* `src/mindvc/utils/fs.py` (`remove`, `path_isin`): local-filesystem helpers.

External collaborators (the ODB store primitives, `Tree.load`, the `os`/
`shutil` layer) are modelled as explicit state: the store is a finite list of
object hashes plus function-valued fields for path derivation, tree content
and injected primitive failures.  Effects of a `gc` run are recorded as an
ordered trace of primitive calls, so ordering and abort properties are
statable.
-/

namespace MindVC

/-! ## Python string primitives

Python's `str.startswith` / `str.endswith` are prefix / suffix tests; we
embed them over the character lists underlying `String`. -/

/-- Python `s.startswith(p)`: `p` is a prefix of `s`. -/
def pyStartswith (s p : String) : Bool :=
  List.isPrefixOf p.data s.data

/-- Python `s.endswith(p)`: `p` is a suffix of `s`. -/
def pyEndswith (s p : String) : Bool :=
  List.isSuffixOf p.data s.data

/-! ## Data model -/

/-- `HashInfo` (spec §3): an opaque content-hash string plus the
directory-snapshot flag, as consumed by `gc` (`hash_info.value`,
`hash_info.isdir`). -/
structure HashInfo where
  value : String
  isdir : Bool
deriving DecidableEq, Repr

/-- A child entry of a loaded `Tree`: iteration over a tree yields
`(relative path, entry_obj)` pairs and `gc` reads `entry_obj.hash_info.value`
(`gc.py` line 17). -/
structure TreeEntry where
  hash_info : HashInfo
deriving DecidableEq, Repr

/-- Modelled from the spec: the object store (ODB) contract of §4.1 plus the
`Tree.load` resolution of §4.2, which live outside `src/`.  The store is:
`read_only` (the mutation gate), `oids` (the finite enumeration produced by
`odb.all(jobs)`, in enumeration order), `oid_to_path` (the deterministic
hash→path derivation), `trees` (the directory snapshots `Tree.load` can
resolve: `none` means the load fails), and two failure-injection fields
giving the errno-style outcome of the external removal primitives
(`none` = the call succeeds). -/
structure ODB where
  read_only : Bool
  oids : List String
  oid_to_path : String → String
  trees : String → Option (List (String × TreeEntry))
  fs_remove_error : String → Option String
  unpacked_remove_error : String → Option String

/-- Error kinds surfacing from a `gc` call (spec §7): the permission guard
(`ObjectDBPermissionError`, raised by `gc` itself), a failed `Tree.load`
during the mark phase, and a storage failure of a removal primitive during
the sweep. -/
inductive GCError where
  | permission (msg : String)
  | treeLoad (hash : String)
  | storage (msg : String)
deriving DecidableEq, Repr

/-- One primitive call performed by the sweep, in call order:
`odb._remove_unpacked_dir(hash_)` or `odb.fs.remove(path)` (each event also
records the loop's hash for the latter, whose `path` argument is
`odb.oid_to_path hash`). -/
inductive Event where
  | removeUnpackedDir (hash : String)
  | fsRemove (hash : String) (path : String)
deriving DecidableEq, Repr

/-- The hash a sweep event concerns. -/
def Event.hash : Event → String
  | .removeUnpackedDir h => h
  | .fsRemove h _ => h

/-! ## The `gc` engine (`src/mindvc/data/hashfile/gc.py`) -/

/-- Modelled from the spec: `HASH_DIR_SUFFIX` from
`mindvc/data/hashfile/hash_info.py` (not under `src/`): the reserved suffix
convention marking directory-snapshot hashes (spec §6; §8 uses `"t.dir"`). -/
def HASH_DIR_SUFFIX : String := ".dir"

/-- `_is_dir_hash` from `gc.py`: `_hash.endswith(HASH_DIR_SUFFIX)`. -/
def is_dir_hash (h : String) : Bool :=
  pyEndswith h HASH_DIR_SUFFIX

/-- Mark phase of `gc` (`gc.py` lines 11-18): fold over `used`, inserting
each `hash_info.value` and, for a directory root under deep mode, every
child entry hash of `Tree.load(cache_odb, hash_info)`.  The Python `set` is
represented by a list queried through `contains`; a failing `Tree.load`
aborts the phase. -/
def markUsed (cache_odb : ODB) (shallow : Bool) :
    List HashInfo → List String → Except GCError (List String)
  | [], acc => .ok acc
  | hi :: rest, acc =>
    let acc := acc ++ [hi.value]
    if hi.isdir && !shallow then
      match cache_odb.trees hi.value with
      | none => .error (.treeLoad hi.value)
      | some entries =>
          markUsed cache_odb shallow rest
            (acc ++ entries.map (fun e => e.2.hash_info.value))
    else
      markUsed cache_odb shallow rest acc

/-- Sweep loop of `gc` (`gc.py` lines 25-40) over the ordered hash list,
threading the `removed` flag and the trace of primitive calls made so far.
For an unused hash: derive `path := odb.oid_to_path hash`; if it is a
directory hash, call `odb._remove_unpacked_dir hash` first; then call
`odb.fs.remove path`; set `removed := true`.  A primitive failure returns
the trace accumulated up to (not including) the failing call together with
the error, so the partially-swept state is observable. -/
def sweepAux (odb : ODB) (used_hashes : List String) :
    List String → Bool → List Event → List Event × Except GCError Bool
  | [], removed, tr => (tr, .ok removed)
  | h :: rest, removed, tr =>
    if used_hashes.contains h then
      sweepAux odb used_hashes rest removed tr
    else
      let path := odb.oid_to_path h
      if is_dir_hash h then
        match odb.unpacked_remove_error h with
        | some e => (tr, .error (.storage e))
        | none =>
          match odb.fs_remove_error path with
          | some e => (tr ++ [.removeUnpackedDir h], .error (.storage e))
          | none =>
              sweepAux odb used_hashes rest true
                (tr ++ [.removeUnpackedDir h, .fsRemove h path])
      else
        match odb.fs_remove_error path with
        | some e => (tr, .error (.storage e))
        | none => sweepAux odb used_hashes rest true (tr ++ [.fsRemove h path])

/-- The ordered sweep sequence (`gc.py` line 29):
`sorted(hashes, key=_is_dir_hash, reverse=True)`.  Python's `sorted` is
stable and `reverse=True` keeps equal-key elements in enumeration order, so
on a boolean key this is exactly the stable partition: all directory hashes
(in enumeration order) followed by all plain hashes (in enumeration order).
`QueryingProgress` only reports progress and yields `odb.all(jobs)`
unchanged. -/
def orderedHashes (oids : List String) : List String :=
  oids.filter (fun h => is_dir_hash h) ++ oids.filter (fun h => !is_dir_hash h)

/-- `gc(odb, used, jobs=None, cache_odb=None, shallow=True)` from `gc.py`.
Returns the ordered trace of removal-primitive calls together with either
the raised error or the returned `removed` flag.  `jobs` only parallelizes
the store's own enumeration I/O (spec §5) and has no semantic effect, so it
is not a parameter of the model. -/
def gc (odb : ODB) (used : List HashInfo) (cache_odb : Option ODB)
    (shallow : Bool) : List Event × Except GCError Bool :=
  if odb.read_only then
    ([], .error (.permission "Cannot gc read-only ODB"))
  else
    let codb := cache_odb.getD odb
    match markUsed codb shallow used [] with
    | .error e => ([], .error e)
    | .ok used_hashes =>
        sweepAux odb used_hashes (orderedHashes odb.oids) false []

/-- The paths passed to `odb.fs.remove` during a run with trace `tr`. -/
def removedPaths (tr : List Event) : List String :=
  tr.filterMap (fun ev => match ev with
    | .fsRemove _ p => some p
    | _ => none)

/-- Modelled from the spec: the store-side effect of the external removal
primitive `remove(path)` (§4.1) — the object stored at `path` is deleted.
After a run with trace `tr`, the store holds exactly the objects whose
derived path was never passed to `remove`. -/
def postObjects (odb : ODB) (tr : List Event) : List String :=
  odb.oids.filter (fun o => !(removedPaths tr).contains (odb.oid_to_path o))

/-- Whether an event is a call to the primary removal primitive
`odb.fs.remove`. -/
def Event.isFsRemove : Event → Bool
  | .fsRemove _ _ => true
  | _ => false

/-- Whether a trace contains at least one `odb.fs.remove` call. -/
def hasRemove (tr : List Event) : Bool :=
  tr.any Event.isFsRemove

/-- The specification-side used set (spec §4.3 step 3, §8 Safety): the root
hashes themselves plus, only under deep mode (`shallow = false`), every
child-entry hash of each directory root's tree as resolved against the
cache store. -/
def UsedSpec (codb : ODB) (shallow : Bool) (used : List HashInfo)
    (h : String) : Prop :=
  (∃ hi ∈ used, hi.value = h) ∨
    (shallow = false ∧ ∃ hi ∈ used, hi.isdir = true ∧
      ∃ es, codb.trees hi.value = some es ∧ ∃ pe ∈ es, pe.2.hash_info.value = h)

/-! ### Concrete example stores (used to evaluate the theorems at explicit
inputs; mirror the scenarios of spec §8) -/

/-- A writable store holding a blob `"a"`, a blob `"b"` and a directory
snapshot `"t.dir"` whose tree lists the child `"a"`; paths are derived
injectively (the identity derivation). -/
def exODB : ODB :=
  { read_only := false
    oids := ["a", "b", "t.dir"]
    oid_to_path := fun h => h
    trees := fun h =>
      if h = "t.dir" then some [("a", ⟨⟨"a", false⟩⟩)] else none
    fs_remove_error := fun _ => none
    unpacked_remove_error := fun _ => none }

/-- The same store with the read-only gate set. -/
def exODBRO : ODB := { exODB with read_only := true }

/-- A store on which every `Tree.load` fails. -/
def exODBNoTrees : ODB := { exODB with trees := fun _ => none }

/-- A store whose removal primitive fails on the path `"x"`. -/
def exODBErr : ODB :=
  { exODB with
    oids := ["x", "y"]
    fs_remove_error := fun p => if p = "x" then some "io failure" else none }

/-! ## Local filesystem helpers (`src/mindvc/utils/fs.py`)

The `os` / `shutil` layer is external (Python stdlib); it is modelled as a
small POSIX filesystem state: the sets of existing file and directory paths,
plus injected errno outcomes for the syscalls that can fail on an existing
path.  Errors carry the state reached at the point of failure. -/

/-- `errno.ENOENT`. -/
def ENOENT : Nat := 2

/-- `errno.EPERM`. -/
def EPERM : Nat := 1

/-- `errno.EISDIR`. -/
def EISDIR : Nat := 21

/-- Modelled from the spec: the local filesystem the `os`/`shutil` layer
acts on — existing file paths, existing directory paths, and injected
errno-valued failures of `os.unlink`, `shutil.rmtree` and `os.chmod` on
existing paths (`none` = the call succeeds). -/
structure PyFS where
  files : List String
  dirs : List String
  unlink_errno : String → Option Nat
  rmtree_errno : String → Option Nat
  chmod_errno : String → Option Nat

/-- A path exists iff it is a current file or directory. -/
def PyFS.pathExists (fs : PyFS) (p : String) : Bool :=
  fs.files.contains p || fs.dirs.contains p

/-- `os.path.isdir(path)`. -/
def os_path_isdir (fs : PyFS) (p : String) : Bool :=
  fs.dirs.contains p

/-- Modelled from POSIX `os.unlink`: fails with `ENOENT` on a missing path,
`EISDIR` on a directory, the injected errno on an existing file, and
otherwise deletes the file.  Failure leaves the state unchanged. -/
def os_unlink (fs : PyFS) (p : String) : Except Nat PyFS :=
  if fs.files.contains p then
    match fs.unlink_errno p with
    | some e => .error e
    | none => .ok { fs with files := fs.files.erase p }
  else if fs.dirs.contains p then .error EISDIR
  else .error ENOENT

/-- `_chmod(func, p, excinfo)` from `fs.py`, as used by `remove` where
`func = os.unlink`: `os.lstat(p)` (raises `ENOENT` on a missing path),
`os.chmod` whose `OSError` is swallowed iff its errno is `ENOENT` or
`EPERM`, then `func(p)` — a second `os.unlink`. -/
def chmodRetry (fs : PyFS) (p : String) : Except (Nat × PyFS) PyFS :=
  if fs.pathExists p then
    let retry : Except (Nat × PyFS) PyFS :=
      match os_unlink fs p with
      | .ok fs' => .ok fs'
      | .error e => .error (e, fs)
    match fs.chmod_errno p with
    | some e => if e ≠ ENOENT ∧ e ≠ EPERM then .error (e, fs) else retry
    | none => retry
  else .error (ENOENT, fs)

/-- `_unlink(path, onerror)` from `fs.py` with `onerror = _chmod`: try
`os.unlink`; on any `OSError`, invoke the handler (which chmods and
retries). -/
def fs_unlink (fs : PyFS) (p : String) : Except (Nat × PyFS) PyFS :=
  match os_unlink fs p with
  | .ok fs' => .ok fs'
  | .error _ => chmodRetry fs p

/-- Modelled from POSIX `shutil.rmtree(path, onerror=_chmod)`: removes the
directory and everything beneath it, or fails with the injected errno. -/
def shutil_rmtree (fs : PyFS) (p : String) : Except (Nat × PyFS) PyFS :=
  match fs.rmtree_errno p with
  | some e => .error (e, fs)
  | none =>
      .ok { fs with
        dirs := (fs.dirs.erase p).filter (fun d => !pyStartswith d (p ++ "/")),
        files := fs.files.filter (fun f => !pyStartswith f (p ++ "/")) }

/-- The `try` body of `remove` (`fs.py` lines 35-39): directories go to
`shutil.rmtree(path, onerror=_chmod)`, everything else to
`_unlink(path, _chmod)`. -/
def remove_try (fs : PyFS) (p : String) : Except (Nat × PyFS) PyFS :=
  if os_path_isdir fs p then shutil_rmtree fs p else fs_unlink fs p

/-- `remove(path)` from `fs.py` lines 34-42: run the body; an `OSError`
whose errno is `ENOENT` is swallowed, any other errno is re-raised. -/
def remove (fs : PyFS) (p : String) : Except (Nat × PyFS) PyFS :=
  match remove_try fs p with
  | .ok fs' => .ok fs'
  | .error (e, fs') => if e ≠ ENOENT then .error (e, fs') else .ok fs'

/-! ## `path_isin` (`src/mindvc/utils/fs.py` lines 45-53) -/

/-- Modelled from POSIX `os.path.normcase`: the identity on posix. -/
def normcase (p : String) : String := p

/-- Modelled from Python `str.split` with the single-character separator
`'/'`, over the underlying character list (empty pieces are kept). -/
def splitSlash : List Char → List (List Char)
  | [] => [[]]
  | c :: cs =>
    match splitSlash cs with
    | [] => [[]]
    | h :: t => if c = '/' then [] :: h :: t else (c :: h) :: t

/-- `path.split('/')`. -/
def pySplitSlash (s : String) : List String :=
  (splitSlash s.data).map String.mk

/-- Modelled from POSIX `os.path.normpath` (`posixpath.normpath`): collapse
`//`, `.` and `..` components purely textually. -/
def normpath (path : String) : String :=
  if path = "" then "."
  else
    let initialSlashes : Nat :=
      if pyStartswith path "/" then
        if pyStartswith path "//" && !pyStartswith path "///" then 2 else 1
      else 0
    let comps := pySplitSlash path
    let newComps := comps.foldl
      (fun acc comp =>
        if comp = "" || comp = "." then acc
        else if comp ≠ ".." ∨ (initialSlashes = 0 ∧ acc = []) ∨
            acc.getLast? = some ".." then
          acc ++ [comp]
        else acc.dropLast)
      []
    let joined := String.intercalate "/" newComps
    let out := String.mk (List.replicate initialSlashes '/') ++ joined
    if out = "" then "." else out

/-- `normalize_path` from `path_isin`:
`os.path.normcase(os.path.normpath(path))`. -/
def normalize_path (p : String) : String := normcase (normpath p)

/-- `os.path.join(a, "")` on posix: append a trailing `/` unless one is
already present. -/
def join_trailing (a : String) : String :=
  if pyEndswith a "/" then a else a ++ "/"

/-- `path_isin(child, parent)` from `fs.py`:
`parent = os.path.join(normalize_path(parent), "")`,
`child = normalize_path(child)`,
`return child != parent and child.startswith(parent)`. -/
def path_isin (child parent : String) : Bool :=
  let parent' := join_trailing (normalize_path parent)
  let child' := normalize_path child
  child' != parent' && pyStartswith child' parent'

/-- A concrete filesystem holding one file `"f"`, with no injected
failures. -/
def exPyFS : PyFS :=
  { files := ["f"], dirs := []
    unlink_errno := fun _ => none
    rmtree_errno := fun _ => none
    chmod_errno := fun _ => none }

/-- The same filesystem where `os.unlink "f"` persistently fails with
`EACCES` (errno 13). -/
def exPyFSErr : PyFS :=
  { exPyFS with unlink_errno := fun p => if p = "f" then some 13 else none }

/-! ## Helper lemmas about the sweep loop -/

/-- The sweep only appends to the trace accumulator, and what it appends
(and its result) does not depend on the accumulator. -/
theorem sweepAux_shift (odb : ODB) (us : List String) (l : List String) :
    ∀ (r : Bool) (tr : List Event),
    sweepAux odb us l r tr =
      (tr ++ (sweepAux odb us l r []).1, (sweepAux odb us l r []).2) := by
  induction l with
  | nil => intro r tr; simp [sweepAux]
  | cons h rest ih =>
    intro r tr
    by_cases hc : us.contains h
    · simp only [sweepAux, hc, if_true]
      rw [ih r tr]
    · simp only [sweepAux, hc, Bool.false_eq_true, if_false]
      cases hd : is_dir_hash h
      · simp only [Bool.false_eq_true, if_false]
        cases hfe : odb.fs_remove_error (odb.oid_to_path h)
        · simp only [List.nil_append]
          rw [ih true (tr ++ [Event.fsRemove h (odb.oid_to_path h)]),
            ih true [Event.fsRemove h (odb.oid_to_path h)]]
          simp
        · simp
      · simp only [if_true]
        cases hue : odb.unpacked_remove_error h
        · simp only [List.nil_append]
          cases hfe : odb.fs_remove_error (odb.oid_to_path h)
          · simp only [List.nil_append]
            rw [ih true (tr ++ [Event.removeUnpackedDir h,
                Event.fsRemove h (odb.oid_to_path h)]),
              ih true [Event.removeUnpackedDir h,
                Event.fsRemove h (odb.oid_to_path h)]]
            simp
          · simp
        · simp

/-- A sweep over hashes that are all in the used set performs no primitive
call and leaves the `removed` flag unchanged. -/
theorem sweepAux_skip_all (odb : ODB) (us : List String) (l : List String)
    (hall : ∀ h ∈ l, us.contains h = true) :
    ∀ (r : Bool) (tr : List Event), sweepAux odb us l r tr = (tr, .ok r) := by
  induction l with
  | nil => intro r tr; simp [sweepAux]
  | cons h rest ih =>
    intro r tr
    have hc : us.contains h = true := hall h (by simp)
    simp only [sweepAux, hc, if_true]
    exact ih (fun h' hh' => hall h' (by simp [hh'])) r tr

/-- Sweeping `l₁ ++ l₂` after a successful sweep of `l₁` continues into
`l₂` from the reached flag and trace. -/
theorem sweepAux_append_ok (odb : ODB) (us : List String)
    (l₁ l₂ : List String) :
    ∀ (r : Bool) (tr tr' : List Event) (r' : Bool),
    sweepAux odb us l₁ r tr = (tr', .ok r') →
    sweepAux odb us (l₁ ++ l₂) r tr = sweepAux odb us l₂ r' tr' := by
  induction l₁ with
  | nil =>
    intro r tr tr' r' hrun
    simp only [sweepAux] at hrun
    cases hrun
    simp
  | cons h rest ih =>
    intro r tr tr' r' hrun
    by_cases hc : us.contains h
    · simp only [sweepAux, hc, if_true] at hrun ⊢
      exact ih r tr tr' r' hrun
    · simp only [sweepAux, hc, Bool.false_eq_true, if_false] at hrun ⊢
      cases hd : is_dir_hash h
      · simp only [hd, Bool.false_eq_true, if_false] at hrun ⊢
        cases hfe : odb.fs_remove_error (odb.oid_to_path h)
        · simp only [hfe] at hrun ⊢
          exact ih _ _ _ _ hrun
        · simp [hfe] at hrun
      · simp only [hd, if_true] at hrun ⊢
        cases hue : odb.unpacked_remove_error h
        · simp only [hue] at hrun ⊢
          cases hfe : odb.fs_remove_error (odb.oid_to_path h)
          · simp only [hfe] at hrun ⊢
            exact ih _ _ _ _ hrun
          · simp [hfe] at hrun
        · simp [hue] at hrun

/-- A failed sweep of `l₁` makes the sweep of `l₁ ++ l₂` fail identically:
nothing of `l₂` is visited. -/
theorem sweepAux_append_error (odb : ODB) (us : List String)
    (l₁ l₂ : List String) :
    ∀ (r : Bool) (tr tr' : List Event) (e : GCError),
    sweepAux odb us l₁ r tr = (tr', .error e) →
    sweepAux odb us (l₁ ++ l₂) r tr = (tr', .error e) := by
  induction l₁ with
  | nil =>
    intro r tr tr' e hrun
    simp [sweepAux] at hrun
  | cons h rest ih =>
    intro r tr tr' e hrun
    by_cases hc : us.contains h
    · simp only [sweepAux, hc, if_true] at hrun ⊢
      exact ih r tr tr' e hrun
    · simp only [sweepAux, hc, Bool.false_eq_true, if_false] at hrun ⊢
      cases hd : is_dir_hash h
      · simp only [hd, Bool.false_eq_true, if_false] at hrun ⊢
        cases hfe : odb.fs_remove_error (odb.oid_to_path h)
        · simp only [hfe] at hrun ⊢
          exact ih _ _ _ _ hrun
        · simpa [hfe] using hrun
      · simp only [hd, if_true] at hrun ⊢
        cases hue : odb.unpacked_remove_error h
        · simp only [hue] at hrun ⊢
          cases hfe : odb.fs_remove_error (odb.oid_to_path h)
          · simp only [hfe] at hrun ⊢
            exact ih _ _ _ _ hrun
          · simpa [hfe] using hrun
        · simpa [hue] using hrun

/-- Every error escaping the sweep is a storage failure. -/
theorem sweepAux_error_kind (odb : ODB) (us : List String) (l : List String) :
    ∀ (r : Bool) (tr tr' : List Event) (e : GCError),
    sweepAux odb us l r tr = (tr', .error e) → ∃ m, e = .storage m := by
  induction l with
  | nil => intro r tr tr' e hrun; simp [sweepAux] at hrun
  | cons h rest ih =>
    intro r tr tr' e hrun
    by_cases hc : us.contains h
    · simp only [sweepAux, hc, if_true] at hrun
      exact ih r tr tr' e hrun
    · simp only [sweepAux, hc, Bool.false_eq_true, if_false] at hrun
      cases hd : is_dir_hash h
      · simp only [hd, Bool.false_eq_true, if_false] at hrun
        cases hfe : odb.fs_remove_error (odb.oid_to_path h)
        · simp only [hfe] at hrun
          exact ih _ _ _ _ hrun
        · simp [hfe] at hrun
          exact ⟨_, hrun.2.symm⟩
      · simp only [hd, if_true] at hrun
        cases hue : odb.unpacked_remove_error h
        · simp only [hue] at hrun
          cases hfe : odb.fs_remove_error (odb.oid_to_path h)
          · simp only [hfe] at hrun
            exact ih _ _ _ _ hrun
          · simp [hfe] at hrun
            exact ⟨_, hrun.2.symm⟩
        · simp [hue] at hrun
          exact ⟨_, hrun.2.symm⟩

/-- Every error escaping the mark phase is a failed tree load. -/
theorem markUsed_error_kind (codb : ODB) (shallow : Bool) :
    ∀ (used : List HashInfo) (acc : List String) (e : GCError),
    markUsed codb shallow used acc = .error e → ∃ h, e = .treeLoad h := by
  intro used
  induction used with
  | nil => intro acc e hrun; simp [markUsed] at hrun
  | cons hi rest ih =>
    intro acc e hrun
    by_cases hdir : hi.isdir && !shallow
    · simp only [markUsed, hdir, if_true] at hrun
      cases ht : codb.trees hi.value
      · simp only [ht] at hrun
        cases hrun
        exact ⟨hi.value, rfl⟩
      · simp only [ht] at hrun
        exact ih _ _ hrun
    · simp only [markUsed, hdir, Bool.false_eq_true, if_false] at hrun
      exact ih _ _ hrun

/-- The mark phase only consults the cache store's tree resolution. -/
theorem markUsed_congr (c c' : ODB) (shallow : Bool)
    (htrees : c.trees = c'.trees) :
    ∀ (used : List HashInfo) (acc : List String),
    markUsed c shallow used acc = markUsed c' shallow used acc := by
  intro used
  induction used with
  | nil => intro acc; simp [markUsed]
  | cons hi rest ih =>
    intro acc
    simp only [markUsed, htrees]
    by_cases hdir : hi.isdir && !shallow
    · simp only [hdir, if_true]
      cases ht : c'.trees hi.value
      · simp
      · simp only
        exact ih _
    · simp only [hdir, Bool.false_eq_true, if_false]
      exact ih _

/-- The sweep only consults the target store's path derivation and removal
primitives. -/
theorem sweepAux_congr (odb odb' : ODB) (us : List String)
    (hpath : odb.oid_to_path = odb'.oid_to_path)
    (hfs : odb.fs_remove_error = odb'.fs_remove_error)
    (hud : odb.unpacked_remove_error = odb'.unpacked_remove_error) :
    ∀ (l : List String) (r : Bool) (tr : List Event),
    sweepAux odb us l r tr = sweepAux odb' us l r tr := by
  intro l
  induction l with
  | nil => intro r tr; simp [sweepAux]
  | cons h rest ih =>
    intro r tr
    simp only [sweepAux, hpath, hfs, hud]
    by_cases hc : us.contains h
    · simp only [hc, if_true]
      exact ih r tr
    · simp only [hc, Bool.false_eq_true, if_false]
      cases hd : is_dir_hash h
      · simp only [Bool.false_eq_true, if_false]
        cases hfe : odb'.fs_remove_error (odb'.oid_to_path h)
        · simp only
          exact ih _ _
        · simp
      · simp only [if_true]
        cases hue : odb'.unpacked_remove_error h
        · simp only
          cases hfe : odb'.fs_remove_error (odb'.oid_to_path h)
          · simp only
            exact ih _ _
          · simp
        · simp

/-- The ordered sweep sequence has the same members as the enumeration. -/
theorem mem_orderedHashes (oids : List String) (h : String) :
    h ∈ orderedHashes oids ↔ h ∈ oids := by
  simp only [orderedHashes, List.mem_append, List.mem_filter]
  cases hd : is_dir_hash h <;> simp [hd]

/-- Provenance of sweep events: every recorded primitive call concerns a
hash of the swept list that is not in the used set; `fs.remove` is always
called on the hash's derived path; the legacy-marker hook is called only on
directory-type hashes. -/
theorem sweepAux_events (odb : ODB) (us : List String) (l : List String) :
    ∀ (r : Bool) (ev : Event), ev ∈ (sweepAux odb us l r []).1 →
      us.contains ev.hash = false ∧ ev.hash ∈ l ∧
      (∀ h p, ev = .fsRemove h p → p = odb.oid_to_path h) ∧
      (∀ h, ev = .removeUnpackedDir h → is_dir_hash h = true) := by
  induction l with
  | nil => intro r ev hev; simp [sweepAux] at hev
  | cons h rest ih =>
    intro r ev hev
    by_cases hc : us.contains h
    · simp only [sweepAux, hc, if_true] at hev
      obtain ⟨h1, h2, h3, h4⟩ := ih r ev hev
      exact ⟨h1, List.mem_cons_of_mem _ h2, h3, h4⟩
    · simp only [sweepAux, hc, Bool.false_eq_true, if_false] at hev
      cases hd : is_dir_hash h
      · simp only [hd, Bool.false_eq_true, if_false] at hev
        cases hfe : odb.fs_remove_error (odb.oid_to_path h)
        · simp only [hfe, List.nil_append] at hev
          rw [sweepAux_shift] at hev
          rcases List.mem_append.mp hev with hev | hev
          · simp only [List.mem_singleton] at hev
            subst hev
            refine ⟨by simpa [Event.hash] using hc, by simp [Event.hash], ?_, ?_⟩
            · intro h' p' hev'
              cases hev'
              rfl
            · intro h' hev'
              cases hev'
          · obtain ⟨h1, h2, h3, h4⟩ := ih true ev hev
            exact ⟨h1, List.mem_cons_of_mem _ h2, h3, h4⟩
        · simp [hfe] at hev
      · simp only [hd, if_true] at hev
        cases hue : odb.unpacked_remove_error h
        · simp only [hue] at hev
          cases hfe : odb.fs_remove_error (odb.oid_to_path h)
          · simp only [hfe, List.nil_append] at hev
            rw [sweepAux_shift] at hev
            rcases List.mem_append.mp hev with hev | hev
            · rcases List.mem_cons.mp hev with hev | hev
              · subst hev
                refine ⟨by simpa [Event.hash] using hc, by simp [Event.hash],
                  ?_, ?_⟩
                · intro h' p' hev'
                  cases hev'
                · intro h' hev'
                  cases hev'
                  exact hd
              · simp only [List.mem_singleton] at hev
                subst hev
                refine ⟨by simpa [Event.hash] using hc, by simp [Event.hash],
                  ?_, ?_⟩
                · intro h' p' hev'
                  cases hev'
                  rfl
                · intro h' hev'
                  cases hev'
            · obtain ⟨h1, h2, h3, h4⟩ := ih true ev hev
              exact ⟨h1, List.mem_cons_of_mem _ h2, h3, h4⟩
          · simp only [hfe, List.nil_append] at hev
            rcases List.mem_singleton.mp hev with hev
            subst hev
            refine ⟨by simpa [Event.hash] using hc, by simp [Event.hash],
              ?_, ?_⟩
            · intro h' p' hev'
              cases hev'
            · intro h' hev'
              cases hev'
              exact hd
        · simp [hue] at hev

/-- A sweep that returns normally has called `fs.remove` on the derived
path of every unused hash of the swept list. -/
theorem sweepAux_ok_removes (odb : ODB) (us : List String) (l : List String) :
    ∀ (r : Bool) (tr' : List Event) (r' : Bool),
    sweepAux odb us l r [] = (tr', .ok r') →
    ∀ h ∈ l, us.contains h = false →
      Event.fsRemove h (odb.oid_to_path h) ∈ tr' := by
  induction l with
  | nil =>
    intro r tr' r' hrun h hh
    simp at hh
  | cons h0 rest ih =>
    intro r tr' r' hrun h hh hcontains
    by_cases hc : us.contains h0
    · simp only [sweepAux, hc, if_true] at hrun
      rcases List.mem_cons.mp hh with hh | hh
      · subst hh
        rw [hcontains] at hc
        cases hc
      · exact ih r tr' r' hrun h hh hcontains
    · simp only [sweepAux, hc, Bool.false_eq_true, if_false] at hrun
      cases hd : is_dir_hash h0
      · simp only [hd, Bool.false_eq_true, if_false] at hrun
        cases hfe : odb.fs_remove_error (odb.oid_to_path h0)
        · simp only [hfe, List.nil_append] at hrun
          rw [sweepAux_shift] at hrun
          have htr : tr' = [Event.fsRemove h0 (odb.oid_to_path h0)] ++
              (sweepAux odb us rest true []).1 := by
            have := congrArg Prod.fst hrun
            simpa using this.symm
          rcases List.mem_cons.mp hh with hh | hh
          · subst hh
            rw [htr]
            simp
          · have hrec : sweepAux odb us rest true [] =
                ((sweepAux odb us rest true []).1, .ok r') := by
              have := congrArg Prod.snd hrun
              simp at this
              rw [Prod.ext_iff]
              exact ⟨rfl, this⟩
            have := ih true _ _ hrec h hh hcontains
            rw [htr]
            exact List.mem_append_right _ this
        · simp [hfe] at hrun
      · simp only [hd, if_true] at hrun
        cases hue : odb.unpacked_remove_error h0
        · simp only [hue] at hrun
          cases hfe : odb.fs_remove_error (odb.oid_to_path h0)
          · simp only [hfe, List.nil_append] at hrun
            rw [sweepAux_shift] at hrun
            have htr : tr' = [Event.removeUnpackedDir h0,
                Event.fsRemove h0 (odb.oid_to_path h0)] ++
                (sweepAux odb us rest true []).1 := by
              have := congrArg Prod.fst hrun
              simpa using this.symm
            rcases List.mem_cons.mp hh with hh | hh
            · subst hh
              rw [htr]
              simp
            · have hrec : sweepAux odb us rest true [] =
                  ((sweepAux odb us rest true []).1, .ok r') := by
                have := congrArg Prod.snd hrun
                simp at this
                rw [Prod.ext_iff]
                exact ⟨rfl, this⟩
              have := ih true _ _ hrec h hh hcontains
              rw [htr]
              exact List.mem_append_right _ this
          · simp [hfe] at hrun
        · simp [hue] at hrun

/-- A trace contains a removal call iff some `fsRemove` event is in it. -/
theorem hasRemove_iff (tr : List Event) :
    hasRemove tr = true ↔ ∃ h p, Event.fsRemove h p ∈ tr := by
  simp only [hasRemove, List.any_eq_true]
  constructor
  · rintro ⟨ev, hmem, hev⟩
    cases ev with
    | removeUnpackedDir h => simp [Event.isFsRemove] at hev
    | fsRemove h p => exact ⟨h, p, hmem⟩
  · rintro ⟨h, p, hmem⟩
    exact ⟨.fsRemove h p, hmem, rfl⟩

/-- The `removed` flag returned by a normally-terminating sweep is the
incoming flag or-ed with "some `fs.remove` call was made". -/
theorem sweepAux_ok_flag (odb : ODB) (us : List String) (l : List String) :
    ∀ (r : Bool) (tr' : List Event) (r' : Bool),
    sweepAux odb us l r [] = (tr', .ok r') →
    r' = (r || hasRemove tr') := by
  induction l with
  | nil =>
    intro r tr' r' hrun
    simp only [sweepAux] at hrun
    cases hrun
    simp [hasRemove]
  | cons h rest ih =>
    intro r tr' r' hrun
    by_cases hc : us.contains h
    · simp only [sweepAux, hc, if_true] at hrun
      exact ih r tr' r' hrun
    · simp only [sweepAux, hc, Bool.false_eq_true, if_false] at hrun
      cases hd : is_dir_hash h
      · simp only [hd, Bool.false_eq_true, if_false] at hrun
        cases hfe : odb.fs_remove_error (odb.oid_to_path h)
        · simp only [hfe, List.nil_append] at hrun
          rw [sweepAux_shift] at hrun
          have htr : tr' = [Event.fsRemove h (odb.oid_to_path h)] ++
              (sweepAux odb us rest true []).1 := by
            have := congrArg Prod.fst hrun
            simpa using this.symm
          have hrec : sweepAux odb us rest true [] =
              ((sweepAux odb us rest true []).1, .ok r') := by
            have := congrArg Prod.snd hrun
            simp at this
            rw [Prod.ext_iff]
            exact ⟨rfl, this⟩
          have := ih true _ _ hrec
          subst htr
          simp [hasRemove, Event.isFsRemove, this]
        · simp [hfe] at hrun
      · simp only [hd, if_true] at hrun
        cases hue : odb.unpacked_remove_error h
        · simp only [hue] at hrun
          cases hfe : odb.fs_remove_error (odb.oid_to_path h)
          · simp only [hfe, List.nil_append] at hrun
            rw [sweepAux_shift] at hrun
            have htr : tr' = [Event.removeUnpackedDir h,
                Event.fsRemove h (odb.oid_to_path h)] ++
                (sweepAux odb us rest true []).1 := by
              have := congrArg Prod.fst hrun
              simpa using this.symm
            have hrec : sweepAux odb us rest true [] =
                ((sweepAux odb us rest true []).1, .ok r') := by
              have := congrArg Prod.snd hrun
              simp at this
              rw [Prod.ext_iff]
              exact ⟨rfl, this⟩
            have := ih true _ _ hrec
            subst htr
            simp [hasRemove, Event.isFsRemove, this]
          · simp [hfe] at hrun
        · simp [hue] at hrun

/-- Whenever the sweep removes the primary object of a directory-type hash,
the legacy-marker hook call for that hash appears earlier in the trace. -/
theorem sweepAux_hook_before (odb : ODB) (us : List String) (l : List String) :
    ∀ (r : Bool) (h : String) (p : String),
    Event.fsRemove h p ∈ (sweepAux odb us l r []).1 → is_dir_hash h = true →
    ∃ t1 t2, (sweepAux odb us l r []).1 =
        t1 ++ Event.removeUnpackedDir h :: t2 ∧ Event.fsRemove h p ∈ t2 := by
  induction l with
  | nil => intro r h p hmem; simp [sweepAux] at hmem
  | cons h0 rest ih =>
    intro r h p hmem hdir
    by_cases hc : us.contains h0
    · simp only [sweepAux, hc, if_true] at hmem ⊢
      exact ih r h p hmem hdir
    · simp only [sweepAux, hc, Bool.false_eq_true, if_false] at hmem ⊢
      cases hd : is_dir_hash h0
      · simp only [hd, Bool.false_eq_true, if_false] at hmem ⊢
        cases hfe : odb.fs_remove_error (odb.oid_to_path h0)
        · simp only [hfe, List.nil_append] at hmem ⊢
          rw [sweepAux_shift] at hmem ⊢
          simp only [List.singleton_append, List.mem_cons] at hmem
          rcases hmem with hmem | hmem
          · cases hmem
            rw [hdir] at hd
            cases hd
          · obtain ⟨t1, t2, heq, hin⟩ := ih true h p hmem hdir
            refine ⟨Event.fsRemove h0 (odb.oid_to_path h0) :: t1, t2, ?_, hin⟩
            simp [heq]
        · simp [hfe] at hmem
      · simp only [hd, if_true] at hmem ⊢
        cases hue : odb.unpacked_remove_error h0
        · simp only [hue] at hmem ⊢
          cases hfe : odb.fs_remove_error (odb.oid_to_path h0)
          · simp only [hfe, List.nil_append] at hmem ⊢
            rw [sweepAux_shift] at hmem ⊢
            simp only [List.cons_append, List.nil_append, List.mem_cons]
              at hmem
            rcases hmem with hmem | hmem | hmem
            · cases hmem
            · cases hmem
              refine ⟨[], Event.fsRemove h0 (odb.oid_to_path h0) ::
                (sweepAux odb us rest true []).1, ?_, by simp⟩
              simp
            · obtain ⟨t1, t2, heq, hin⟩ := ih true h p hmem hdir
              refine ⟨Event.removeUnpackedDir h0 ::
                Event.fsRemove h0 (odb.oid_to_path h0) :: t1, t2, ?_, hin⟩
              simp [heq]
          · simp only [hfe, List.nil_append] at hmem
            simp at hmem
        · simp [hue] at hmem

/-- Unfolding `UsedSpec` over the head root. -/
theorem UsedSpec_cons (codb : ODB) (shallow : Bool) (hi : HashInfo)
    (rest : List HashInfo) (h : String) :
    UsedSpec codb shallow (hi :: rest) h ↔
      (hi.value = h ∨ (shallow = false ∧ hi.isdir = true ∧
        ∃ es, codb.trees hi.value = some es ∧
          ∃ pe ∈ es, pe.2.hash_info.value = h)) ∨
      UsedSpec codb shallow rest h := by
  simp only [UsedSpec, List.exists_mem_cons_iff]
  constructor
  · rintro ((hh | hh) | ⟨hsh, (hh | hh)⟩)
    · exact Or.inl (Or.inl hh)
    · exact Or.inr (Or.inl hh)
    · exact Or.inl (Or.inr ⟨hsh, hh⟩)
    · exact Or.inr (Or.inr ⟨hsh, hh⟩)
  · rintro ((hh | ⟨hsh, hh⟩) | (hh | ⟨hsh, hh⟩))
    · exact Or.inl (Or.inl hh)
    · exact Or.inr ⟨hsh, Or.inl hh⟩
    · exact Or.inl (Or.inr hh)
    · exact Or.inr ⟨hsh, Or.inr hh⟩

/-- The mark phase computes exactly the specification-side used set on top
of its accumulator. -/
theorem markUsed_mem (codb : ODB) (shallow : Bool) :
    ∀ (used : List HashInfo) (acc us : List String),
    markUsed codb shallow used acc = .ok us →
    ∀ h, us.contains h = true ↔
      (acc.contains h = true ∨ UsedSpec codb shallow used h) := by
  intro used
  induction used with
  | nil =>
    intro acc us hrun h
    simp only [markUsed] at hrun
    cases hrun
    simp [UsedSpec]
  | cons hi rest ih =>
    intro acc us hrun h
    by_cases hdir : hi.isdir && !shallow
    · have hisdir : hi.isdir = true := by
        rcases Bool.and_eq_true_iff.mp hdir with ⟨h1, _⟩
        exact h1
      have hshallow : shallow = false := by
        rcases Bool.and_eq_true_iff.mp hdir with ⟨_, h2⟩
        simpa using h2
      simp only [markUsed, hdir, if_true] at hrun
      cases ht : codb.trees hi.value with
      | none => simp [ht] at hrun
      | some es =>
        simp only [ht] at hrun
        rw [ih _ _ hrun h, UsedSpec_cons]
        simp only [List.elem_eq_mem, List.mem_append, List.mem_singleton,
          List.mem_map, decide_eq_true_eq, ht, hisdir, hshallow,
          Option.some.injEq, true_and]
        constructor
        · rintro (((hh | hh) | ⟨pe, hpe, hval⟩) | hh)
          · exact Or.inl hh
          · exact Or.inr (Or.inl (Or.inl hh.symm))
          · exact Or.inr (Or.inl (Or.inr ⟨es, rfl, pe, hpe, hval⟩))
          · exact Or.inr (Or.inr hh)
        · rintro (hh | ((hh | ⟨es', hes', pe, hpe, hval⟩) | hh))
          · exact Or.inl (Or.inl (Or.inl hh))
          · exact Or.inl (Or.inl (Or.inr hh.symm))
          · subst hes'
            exact Or.inl (Or.inr ⟨pe, hpe, hval⟩)
          · exact Or.inr hh
    · simp only [markUsed, hdir, Bool.false_eq_true, if_false] at hrun
      rw [ih _ _ hrun h, UsedSpec_cons]
      have hvac : ¬(shallow = false ∧ hi.isdir = true ∧
          ∃ es, codb.trees hi.value = some es ∧
            ∃ pe ∈ es, pe.2.hash_info.value = h) := by
        rintro ⟨hsh, hisd, -⟩
        exact hdir (by simp [hisd, hsh])
      simp only [List.elem_eq_mem, List.mem_append, List.mem_singleton,
        decide_eq_true_eq]
      constructor
      · rintro ((hh | hh) | hh)
        · exact Or.inl hh
        · exact Or.inr (Or.inl (Or.inl hh.symm))
        · exact Or.inr (Or.inr hh)
      · rintro (hh | ((hh | hh) | hh))
        · exact Or.inl (Or.inl hh)
        · exact Or.inl (Or.inr hh.symm)
        · exact absurd hh hvac
        · exact Or.inr hh

/-- `gc` on a writable store with a failing mark phase returns that error
with an empty trace. -/
theorem gc_mark_error_eq (odb : ODB) (used : List HashInfo)
    (cache_odb : Option ODB) (shallow : Bool) (e : GCError)
    (hro : odb.read_only = false)
    (hmark : markUsed (cache_odb.getD odb) shallow used [] = .error e) :
    gc odb used cache_odb shallow = ([], .error e) := by
  simp [gc, hro, hmark]

/-- `gc` on a writable store with a successful mark phase is the sweep of
the ordered enumeration against the marked set. -/
theorem gc_mark_ok_eq (odb : ODB) (used : List HashInfo)
    (cache_odb : Option ODB) (shallow : Bool) (us : List String)
    (hro : odb.read_only = false)
    (hmark : markUsed (cache_odb.getD odb) shallow used [] = .ok us) :
    gc odb used cache_odb shallow =
      sweepAux odb us (orderedHashes odb.oids) false [] := by
  simp [gc, hro, hmark]

/-- Inversion of a `gc` run that returned normally: the store was writable,
the mark phase succeeded with some used set, and the run is the sweep over
the ordered enumeration. -/
theorem gc_ok_inv (odb : ODB) (used : List HashInfo) (cache_odb : Option ODB)
    (shallow : Bool) (tr : List Event) (r : Bool)
    (hrun : gc odb used cache_odb shallow = (tr, .ok r)) :
    odb.read_only = false ∧
    ∃ us, markUsed (cache_odb.getD odb) shallow used [] = .ok us ∧
      sweepAux odb us (orderedHashes odb.oids) false [] = (tr, .ok r) := by
  cases hb : odb.read_only
  · refine ⟨rfl, ?_⟩
    rcases hmk : markUsed (cache_odb.getD odb) shallow used [] with e | us
    · rw [gc_mark_error_eq odb used cache_odb shallow e hb hmk] at hrun
      cases hrun
    · refine ⟨us, rfl, ?_⟩
      rw [gc_mark_ok_eq odb used cache_odb shallow us hb hmk] at hrun
      exact hrun
  · simp [gc, hb] at hrun

/-- With an empty trace the store is unchanged. -/
theorem postObjects_nil (odb : ODB) : postObjects odb [] = odb.oids := by
  simp [postObjects, removedPaths]

/-- If processing a single hash fails, the sweep continuing with any
further hashes fails identically: nothing after the failing hash is
visited. -/
theorem sweepAux_step_error (odb : ODB) (us : List String) (h : String)
    (l₂ : List String) (r : Bool) (tr trh : List Event) (e : GCError)
    (hstep : sweepAux odb us [h] r tr = (trh, .error e)) :
    sweepAux odb us (h :: l₂) r tr = (trh, .error e) := by
  by_cases hc : us.contains h
  · simp only [sweepAux, hc, if_true] at hstep
    have := congrArg Prod.snd hstep
    simp at this
  · simp only [sweepAux, hc, Bool.false_eq_true, if_false] at hstep ⊢
    cases hd : is_dir_hash h
    · simp only [hd, Bool.false_eq_true, if_false] at hstep ⊢
      cases hfe : odb.fs_remove_error (odb.oid_to_path h)
      · simp [hfe, sweepAux] at hstep
      · simpa [hfe] using hstep
    · simp only [hd, if_true] at hstep ⊢
      cases hue : odb.unpacked_remove_error h
      · simp only [hue] at hstep ⊢
        cases hfe : odb.fs_remove_error (odb.oid_to_path h)
        · simp [hfe, sweepAux] at hstep
        · simpa [hfe] using hstep
      · simpa [hue] using hstep

/-! ## The claims -/

/-- **C3**: on a read-only store `gc` raises the permission error kind
before doing anything — the result is the permission error with an empty
call trace, and the store's object set is unchanged — and conversely the
permission error kind is raised only when the store is read-only. -/
theorem gc_read_only_guard (odb : ODB) (used : List HashInfo)
    (cache_odb : Option ODB) (shallow : Bool) :
    (odb.read_only = true →
      gc odb used cache_odb shallow =
        ([], .error (.permission "Cannot gc read-only ODB")) ∧
      postObjects odb [] = odb.oids) ∧
    (∀ tr m, gc odb used cache_odb shallow = (tr, .error (.permission m)) →
      odb.read_only = true) := by
  constructor
  · intro hro
    exact ⟨by simp [gc, hro], postObjects_nil odb⟩
  · intro tr m hrun
    cases hb : odb.read_only
    · exfalso
      rcases hmk : markUsed (cache_odb.getD odb) shallow used [] with e | us
      · rw [gc_mark_error_eq odb used cache_odb shallow e hb hmk] at hrun
        obtain ⟨h0, he⟩ := markUsed_error_kind _ _ _ _ _ hmk
        rw [he] at hrun
        cases hrun
      · rw [gc_mark_ok_eq odb used cache_odb shallow us hb hmk] at hrun
        obtain ⟨m', he⟩ := sweepAux_error_kind odb us _ _ _ _ _ hrun
        cases he
    · rfl

/-- **C3 witness**: evaluated on the concrete read-only store. -/
theorem gc_read_only_guard_witness :
    (gc exODBRO [] none true =
        ([], .error (.permission "Cannot gc read-only ODB")) ∧
      postObjects exODBRO [] = exODBRO.oids) ∧
    exODBRO.read_only = true :=
  ⟨(gc_read_only_guard exODBRO [] none true).1 rfl,
    (gc_read_only_guard exODBRO [] none true).2 []
      "Cannot gc read-only ODB"
      ((gc_read_only_guard exODBRO [] none true).1 rfl).1⟩

/-- **C4**: the marked used set is exactly the root hashes plus — only
under deep mode — the child-entry hashes of each directory root's loaded
tree; under shallow mode directory roots contribute only their own hash. -/
theorem gc_mark_set (codb : ODB) (shallow : Bool) (used : List HashInfo)
    (us : List String)
    (hmark : markUsed codb shallow used [] = .ok us) :
    ∀ h, us.contains h = true ↔ UsedSpec codb shallow used h := by
  intro h
  rw [markUsed_mem codb shallow used [] us hmark h]
  simp

/-- **C4 witness**: under deep mode the child `"a"` of the directory root
`"t.dir"` is marked. -/
theorem gc_mark_set_witness :
    (["t.dir", "a"] : List String).contains "a" = true ↔
      UsedSpec exODB false [⟨"t.dir", true⟩] "a" :=
  gc_mark_set exODB false [⟨"t.dir", true⟩] ["t.dir", "a"] rfl "a"

/-- **C6**: a normal `gc` run returns `true` iff it performed at least one
object removal; when every enumerated hash is marked it returns `false`
with no primitive call and the store unchanged. -/
theorem gc_removed_flag (odb : ODB) (used : List HashInfo)
    (cache_odb : Option ODB) (shallow : Bool) :
    (∀ tr r, gc odb used cache_odb shallow = (tr, .ok r) →
      (r = true ↔ ∃ h p, Event.fsRemove h p ∈ tr)) ∧
    (∀ us, odb.read_only = false →
      markUsed (cache_odb.getD odb) shallow used [] = .ok us →
      (∀ h ∈ odb.oids, us.contains h = true) →
      gc odb used cache_odb shallow = ([], .ok false) ∧
        postObjects odb [] = odb.oids) := by
  constructor
  · intro tr r hrun
    obtain ⟨hro, us, hmk, hsweep⟩ := gc_ok_inv odb used cache_odb shallow
      tr r hrun
    have hflag := sweepAux_ok_flag odb us (orderedHashes odb.oids)
      false tr r hsweep
    rw [hflag, Bool.false_or]
    exact hasRemove_iff tr
  · intro us hro hmk hall
    have hall' : ∀ h ∈ orderedHashes odb.oids, us.contains h = true :=
      fun h hh => hall h ((mem_orderedHashes odb.oids h).mp hh)
    refine ⟨?_, postObjects_nil odb⟩
    rw [gc_mark_ok_eq odb used cache_odb shallow us hro hmk]
    exact sweepAux_skip_all odb us (orderedHashes odb.oids) hall' false []

/-- **C6 witness**: a sweep that removes `"b"` returns `true`; a store
whose every object is marked yields `false` and no mutation. -/
theorem gc_removed_flag_witness :
    (true = true ↔ ∃ h p, Event.fsRemove h p ∈
      [Event.removeUnpackedDir "t.dir", Event.fsRemove "t.dir" "t.dir",
        Event.fsRemove "b" "b"]) ∧
    (gc exODB [⟨"a", false⟩, ⟨"b", false⟩, ⟨"t.dir", false⟩] none true =
        ([], .ok false) ∧
      postObjects exODB [] = exODB.oids) :=
  ⟨(gc_removed_flag exODB [⟨"a", false⟩] none true).1
      [Event.removeUnpackedDir "t.dir", Event.fsRemove "t.dir" "t.dir",
        Event.fsRemove "b" "b"] true rfl,
    (gc_removed_flag exODB
        [⟨"a", false⟩, ⟨"b", false⟩, ⟨"t.dir", false⟩] none true).2
      ["a", "b", "t.dir"] rfl rfl (by decide)⟩

/-- **C1**: a normally-returning `gc` never passes a used hash — a root
value or, under deep mode, a child-entry hash of a directory root — to the
removal primitive, so such objects still exist in the store afterwards
(path derivation being injective, as for a content-addressable layout). -/
theorem gc_safety (odb : ODB) (used : List HashInfo) (cache_odb : Option ODB)
    (shallow : Bool) (tr : List Event) (r : Bool) (h : String)
    (hrun : gc odb used cache_odb shallow = (tr, .ok r))
    (hinj : Function.Injective odb.oid_to_path)
    (hh : UsedSpec (cache_odb.getD odb) shallow used h) :
    (∀ p, Event.fsRemove h p ∉ tr) ∧
      (h ∈ odb.oids → h ∈ postObjects odb tr) := by
  obtain ⟨hro, us, hmk, hsweep⟩ := gc_ok_inv odb used cache_odb shallow
    tr r hrun
  have hus : us.contains h = true := (gc_mark_set _ _ _ _ hmk h).mpr hh
  have htr : tr = (sweepAux odb us (orderedHashes odb.oids) false []).1 := by
    rw [hsweep]
  have hnever : ∀ p, Event.fsRemove h p ∉ tr := by
    intro p hp
    rw [htr] at hp
    obtain ⟨h1, -, -, -⟩ := sweepAux_events odb us (orderedHashes odb.oids)
      false (Event.fsRemove h p) hp
    rw [show (Event.fsRemove h p).hash = h from rfl, hus] at h1
    cases h1
  refine ⟨hnever, ?_⟩
  intro hmem
  rw [postObjects, List.mem_filter]
  refine ⟨hmem, ?_⟩
  cases hcb : (removedPaths tr).contains (odb.oid_to_path h)
  · simp
  · exfalso
    have hmemp : odb.oid_to_path h ∈ removedPaths tr := by
      simpa using hcb
    simp only [removedPaths, List.mem_filterMap] at hmemp
    obtain ⟨ev, hev, hevsome⟩ := hmemp
    cases ev with
    | removeUnpackedDir h' => simp at hevsome
    | fsRemove h' p' =>
      simp only [Option.some.injEq] at hevsome
      subst hevsome
      rw [htr] at hev
      obtain ⟨h1, -, h3, -⟩ := sweepAux_events odb us
        (orderedHashes odb.oids) false (Event.fsRemove h' _) hev
      have hpath : odb.oid_to_path h = odb.oid_to_path h' := h3 h' _ rfl
      have : h = h' := hinj hpath
      subst this
      rw [show (Event.fsRemove h (odb.oid_to_path h)).hash = h from rfl,
        hus] at h1
      cases h1

/-- **C1 witness**: after a deep run keeping the root `"t.dir"` and its
child `"a"`, the child was never removed and survives. -/
theorem gc_safety_witness :
    (∀ p, Event.fsRemove "a" p ∉
      [Event.fsRemove "b" "b"]) ∧
    ("a" ∈ exODB.oids → "a" ∈ postObjects exODB [Event.fsRemove "b" "b"]) :=
  gc_safety exODB [⟨"t.dir", true⟩] none false
    [Event.fsRemove "b" "b"] true "a" rfl (fun _ _ hab => hab)
    (Or.inr ⟨rfl, ⟨"t.dir", true⟩, by simp, rfl, [("a", ⟨⟨"a", false⟩⟩)],
      rfl, ("a", ⟨⟨"a", false⟩⟩), by simp, rfl⟩)

/-- **C2**: in any single `gc` run the trace splits into removals of
directory-type hashes followed by removals of plain hashes (the enumeration
is stably partitioned directory-hashes-first); the legacy directory-marker
hook is called only for directory-type hashes, and whenever a directory
hash's primary object is removed the hook call for it appears earlier in
the trace. -/
theorem gc_dir_before_plain (odb : ODB) (used : List HashInfo)
    (cache_odb : Option ODB) (shallow : Bool) (tr : List Event)
    (res : Except GCError Bool)
    (hrun : gc odb used cache_odb shallow = (tr, res)) :
    (∃ t1 t2, tr = t1 ++ t2 ∧
      (∀ ev ∈ t1, is_dir_hash ev.hash = true) ∧
      (∀ ev ∈ t2, is_dir_hash ev.hash = false)) ∧
    (∀ h, Event.removeUnpackedDir h ∈ tr → is_dir_hash h = true) ∧
    (∀ h p, Event.fsRemove h p ∈ tr → is_dir_hash h = true →
      ∃ t1 t2, tr = t1 ++ Event.removeUnpackedDir h :: t2 ∧
        Event.fsRemove h p ∈ t2) := by
  cases hb : odb.read_only
  · rcases hmk : markUsed (cache_odb.getD odb) shallow used [] with e | us
    · rw [gc_mark_error_eq odb used cache_odb shallow e hb hmk] at hrun
      have htr : tr = [] := by
        have := congrArg Prod.fst hrun
        simpa using this
      subst htr
      exact ⟨⟨[], [], by simp, by simp, by simp⟩, by simp, by simp⟩
    · rw [gc_mark_ok_eq odb used cache_odb shallow us hb hmk] at hrun
      have htr : tr = (sweepAux odb us (orderedHashes odb.oids) false []).1 := by
        have := congrArg Prod.fst hrun
        simpa using this.symm
      refine ⟨?_, ?_, ?_⟩
      · -- the split into directory-hash events then plain-hash events
        rcases hA : sweepAux odb us
            (odb.oids.filter (fun h => is_dir_hash h)) false [] with ⟨trA, resA⟩
        have htrA : trA = (sweepAux odb us
            (odb.oids.filter (fun h => is_dir_hash h)) false []).1 := by
          rw [hA]
        have hdirA : ∀ ev ∈ trA, is_dir_hash ev.hash = true := by
          intro ev hev
          rw [htrA] at hev
          obtain ⟨-, h2, -, -⟩ := sweepAux_events odb us _ false ev hev
          exact (List.mem_filter.mp h2).2
        cases resA with
        | error e =>
          have := sweepAux_append_error odb us
            (odb.oids.filter (fun h => is_dir_hash h))
            (odb.oids.filter (fun h => !is_dir_hash h)) false [] trA e hA
          rw [orderedHashes] at htr
          rw [this] at htr
          exact ⟨trA, [], by simp [htr], hdirA, by simp⟩
        | ok rA =>
          have hstep := sweepAux_append_ok odb us
            (odb.oids.filter (fun h => is_dir_hash h))
            (odb.oids.filter (fun h => !is_dir_hash h)) false [] trA rA hA
          rw [orderedHashes] at htr
          rw [hstep, sweepAux_shift] at htr
          refine ⟨trA, (sweepAux odb us
            (odb.oids.filter (fun h => !is_dir_hash h)) rA []).1,
            by simpa using htr, hdirA, ?_⟩
          intro ev hev
          obtain ⟨-, h2, -, -⟩ := sweepAux_events odb us _ rA ev hev
          have := (List.mem_filter.mp h2).2
          simpa using this
      · intro h hmem
        rw [htr] at hmem
        obtain ⟨-, -, -, h4⟩ := sweepAux_events odb us
          (orderedHashes odb.oids) false (Event.removeUnpackedDir h) hmem
        exact h4 h rfl
      · intro h p hmem hdir
        rw [htr] at hmem ⊢
        exact sweepAux_hook_before odb us (orderedHashes odb.oids) false
          h p hmem hdir
  · have : tr = [] := by
      simp only [gc, hb, if_true] at hrun
      have := congrArg Prod.fst hrun
      simpa using this
    subst this
    exact ⟨⟨[], [], by simp, by simp, by simp⟩, by simp, by simp⟩

/-- **C2 witness**: in a run removing the directory hash `"t.dir"` and the
plain hashes `"a"`, `"b"`, the trace is directory events first, the hook is
called only on `"t.dir"`, and the hook precedes its primary removal. -/
theorem gc_dir_before_plain_witness :
    (∃ t1 t2,
      [Event.removeUnpackedDir "t.dir", Event.fsRemove "t.dir" "t.dir",
        Event.fsRemove "a" "a", Event.fsRemove "b" "b"] = t1 ++ t2 ∧
      (∀ ev ∈ t1, is_dir_hash ev.hash = true) ∧
      (∀ ev ∈ t2, is_dir_hash ev.hash = false)) ∧
    (∀ h, Event.removeUnpackedDir h ∈
        [Event.removeUnpackedDir "t.dir", Event.fsRemove "t.dir" "t.dir",
          Event.fsRemove "a" "a", Event.fsRemove "b" "b"] →
      is_dir_hash h = true) ∧
    (∀ h p, Event.fsRemove h p ∈
        [Event.removeUnpackedDir "t.dir", Event.fsRemove "t.dir" "t.dir",
          Event.fsRemove "a" "a", Event.fsRemove "b" "b"] →
      is_dir_hash h = true →
      ∃ t1 t2,
        [Event.removeUnpackedDir "t.dir", Event.fsRemove "t.dir" "t.dir",
          Event.fsRemove "a" "a", Event.fsRemove "b" "b"] =
          t1 ++ Event.removeUnpackedDir h :: t2 ∧
        Event.fsRemove h p ∈ t2) :=
  gc_dir_before_plain exODB [] none true
    [Event.removeUnpackedDir "t.dir", Event.fsRemove "t.dir" "t.dir",
      Event.fsRemove "a" "a", Event.fsRemove "b" "b"] (.ok true) rfl

/-- **C5**: after a normally-returning `gc`, running `gc` again with the
same arguments on the resulting store removes nothing — it returns `false`
with an empty call trace — and the store is unchanged between the end of
the first call and the end of the second. -/
theorem gc_idempotent (odb : ODB) (used : List HashInfo)
    (cache_odb : Option ODB) (shallow : Bool) (tr₁ : List Event) (r₁ : Bool)
    (hrun : gc odb used cache_odb shallow = (tr₁, .ok r₁)) :
    gc { odb with oids := postObjects odb tr₁ } used cache_odb shallow =
      ([], .ok false) ∧
    postObjects { odb with oids := postObjects odb tr₁ } [] =
      postObjects odb tr₁ := by
  obtain ⟨hro, us, hmk, hsweep⟩ := gc_ok_inv odb used cache_odb shallow
    tr₁ r₁ hrun
  have htrees : (cache_odb.getD { odb with oids := postObjects odb tr₁ }).trees
      = (cache_odb.getD odb).trees := by
    cases cache_odb <;> rfl
  have hmk₂ : markUsed
      (cache_odb.getD { odb with oids := postObjects odb tr₁ }) shallow
      used [] = .ok us := by
    rw [markUsed_congr _ (cache_odb.getD odb) shallow htrees used []]
    exact hmk
  have htr₁ : tr₁ = (sweepAux odb us (orderedHashes odb.oids) false []).1 := by
    rw [hsweep]
  have hsub : ∀ h ∈ postObjects odb tr₁, us.contains h = true := by
    intro h hh
    obtain ⟨hmemoids, hnp⟩ := List.mem_filter.mp hh
    cases hcb : us.contains h
    · exfalso
      have hordered : h ∈ orderedHashes odb.oids :=
        (mem_orderedHashes odb.oids h).mpr hmemoids
      have hrem := sweepAux_ok_removes odb us (orderedHashes odb.oids)
        false tr₁ r₁ hsweep h hordered hcb
      have hpmem : odb.oid_to_path h ∈ removedPaths tr₁ := by
        simp only [removedPaths, List.mem_filterMap]
        exact ⟨Event.fsRemove h (odb.oid_to_path h), hrem, rfl⟩
      have : (removedPaths tr₁).contains (odb.oid_to_path h) = true := by
        simpa using hpmem
      rw [this] at hnp
      cases hnp
    · rfl
  constructor
  · rw [gc_mark_ok_eq { odb with oids := postObjects odb tr₁ } used
      cache_odb shallow us hro hmk₂]
    rw [sweepAux_congr { odb with oids := postObjects odb tr₁ } odb us
      rfl rfl rfl]
    refine sweepAux_skip_all odb us _ ?_ false []
    intro h hh
    exact hsub h ((mem_orderedHashes _ h).mp hh)
  · exact postObjects_nil _

/-- **C5 witness**: a second run after sweeping `{"a","b","t.dir"}` with
root `"a"` removes nothing. -/
theorem gc_idempotent_witness :
    gc { exODB with oids := (postObjects exODB
        [Event.removeUnpackedDir "t.dir", Event.fsRemove "t.dir" "t.dir",
          Event.fsRemove "b" "b"]) } [⟨"a", false⟩] none true =
      ([], .ok false) ∧
    postObjects { exODB with oids := (postObjects exODB
        [Event.removeUnpackedDir "t.dir", Event.fsRemove "t.dir" "t.dir",
          Event.fsRemove "b" "b"]) } [] =
      postObjects exODB
        [Event.removeUnpackedDir "t.dir", Event.fsRemove "t.dir" "t.dir",
          Event.fsRemove "b" "b"] :=
  gc_idempotent exODB [⟨"a", false⟩] none true
    [Event.removeUnpackedDir "t.dir", Event.fsRemove "t.dir" "t.dir",
      Event.fsRemove "b" "b"] true rfl

/-- **C7**: errors propagate unmodified and abort all remaining work: a
mark-phase failure surfaces before any removal primitive is invoked (empty
trace), and once the sweep fails while processing a hash, the run's outcome
is that failure regardless of the hashes remaining after it — none of them
is visited or removed. -/
theorem gc_error_propagation :
    (∀ (odb : ODB) (used : List HashInfo) (cache_odb : Option ODB)
        (shallow : Bool) (e : GCError),
      odb.read_only = false →
      markUsed (cache_odb.getD odb) shallow used [] = .error e →
      gc odb used cache_odb shallow = ([], .error e)) ∧
    (∀ (odb : ODB) (us : List String) (l₁ : List String) (h : String)
        (l₂ : List String) (tr₁ trh : List Event) (r₁ : Bool) (e : GCError),
      sweepAux odb us l₁ false [] = (tr₁, .ok r₁) →
      sweepAux odb us [h] r₁ tr₁ = (trh, .error e) →
      sweepAux odb us (l₁ ++ h :: l₂) false [] = (trh, .error e)) := by
  constructor
  · intro odb used cache_odb shallow e hro hmk
    exact gc_mark_error_eq odb used cache_odb shallow e hro hmk
  · intro odb us l₁ h l₂ tr₁ trh r₁ e h1 h2
    rw [sweepAux_append_ok odb us l₁ (h :: l₂) false [] tr₁ r₁ h1]
    exact sweepAux_step_error odb us h l₂ r₁ tr₁ trh e h2

/-- **C7 witness**: a failing `Tree.load` aborts `gc` with no removal; a
removal failure on `"x"` aborts the sweep before `"y"` is visited. -/
theorem gc_error_propagation_witness :
    gc exODBNoTrees [⟨"t.dir", true⟩] none false =
      ([], .error (.treeLoad "t.dir")) ∧
    sweepAux exODBErr [] ["x", "y"] false [] =
      ([], .error (.storage "io failure")) :=
  ⟨gc_error_propagation.1 exODBNoTrees [⟨"t.dir", true⟩] none false
      (.treeLoad "t.dir") rfl rfl,
    gc_error_propagation.2 exODBErr [] [] "x" ["y"] [] [] false
      (.storage "io failure") rfl rfl⟩

/-- **C8**: an absent `cache_odb` is resolved to the target store itself;
when one is supplied, every tree load consults it — the target store's own
tree resolution is never used — and the cache store influences the run only
through its tree resolution. -/
theorem gc_cache_resolution (odb : ODB) (used : List HashInfo)
    (shallow : Bool) :
    (gc odb used none shallow = gc odb used (some odb) shallow) ∧
    (∀ (c : ODB) (t : String → Option (List (String × TreeEntry))),
      gc odb used (some c) shallow =
        gc { odb with trees := t } used (some c) shallow) ∧
    (∀ c c' : ODB, c.trees = c'.trees →
      gc odb used (some c) shallow = gc odb used (some c') shallow) := by
  refine ⟨rfl, ?_, ?_⟩
  · intro c t
    by_cases hb : odb.read_only = true
    · simp [gc, hb]
    · have hb' : odb.read_only = false := by simpa using hb
      rcases hmk : markUsed c shallow used [] with e | us
      · rw [gc_mark_error_eq odb used (some c) shallow e hb' hmk,
          gc_mark_error_eq { odb with trees := t } used (some c) shallow
            e hb' hmk]
      · rw [gc_mark_ok_eq odb used (some c) shallow us hb' hmk,
          gc_mark_ok_eq { odb with trees := t } used (some c) shallow
            us hb' hmk]
        exact sweepAux_congr odb { odb with trees := t } us rfl rfl rfl
          (orderedHashes odb.oids) false []
  · intro c c' htrees
    cases hb : odb.read_only
    · rcases hmk : markUsed c shallow used [] with e | us
      · have hmk' : markUsed c' shallow used [] = .error e := by
          rw [← markUsed_congr c c' shallow htrees used []]
          exact hmk
        rw [gc_mark_error_eq odb used (some c) shallow e hb hmk,
          gc_mark_error_eq odb used (some c') shallow e hb hmk']
      · have hmk' : markUsed c' shallow used [] = .ok us := by
          rw [← markUsed_congr c c' shallow htrees used []]
          exact hmk
        rw [gc_mark_ok_eq odb used (some c) shallow us hb hmk,
          gc_mark_ok_eq odb used (some c') shallow us hb hmk']
    · simp [gc, hb]

/-- **C8 witness**: two cache stores with the same tree resolution give the
same run. -/
theorem gc_cache_resolution_witness :
    gc exODB [] (some exODB) true = gc exODB [] (some exODBRO) true :=
  (gc_cache_resolution exODB [] true).2.2 exODB exODBRO rfl

/-- **C9**: `remove(path)` swallows exactly `ENOENT`: on a missing path it
returns normally with the filesystem unchanged (idempotent no-op); every
error `remove` raises has an errno other than `ENOENT`; and any error with
another errno escaping the try-body propagates unmodified. -/
theorem remove_enoent (fs : PyFS) (p : String) :
    (fs.pathExists p = false → remove fs p = .ok fs) ∧
    (∀ e fs', remove fs p = .error (e, fs') → e ≠ ENOENT) ∧
    (∀ e fs', remove_try fs p = .error (e, fs') → e ≠ ENOENT →
      remove fs p = .error (e, fs')) := by
  refine ⟨?_, ?_, ?_⟩
  · intro hne
    have hmem : ¬p ∈ fs.files ∧ ¬p ∈ fs.dirs := by
      simpa [PyFS.pathExists] using hne
    simp [remove, remove_try, os_path_isdir, fs_unlink, os_unlink,
      chmodRetry, PyFS.pathExists, hmem.1, hmem.2]
  · intro e fs' hrun
    cases htry : remove_try fs p with
    | ok fs'' => simp [remove, htry] at hrun
    | error pair =>
      obtain ⟨e', fs''⟩ := pair
      simp only [remove, htry] at hrun
      by_cases he : e' = ENOENT
      · simp [he] at hrun
      · simp only [ne_eq, he, not_false_eq_true, if_true] at hrun
        obtain ⟨he1, -⟩ := Prod.mk.injEq .. ▸ Except.error.injEq .. ▸ hrun
        exact he1 ▸ he
  · intro e fs' htry hne
    simp [remove, htry, hne]

/-- **C9 witness**: removing the absent path `"g"` is a no-op; an injected
`EACCES` (13) on `"f"` escapes both the try-body and `remove`. -/
theorem remove_enoent_witness :
    remove exPyFS "g" = .ok exPyFS ∧
    (13 : Nat) ≠ ENOENT ∧
    remove exPyFSErr "f" = .error (13, exPyFSErr) :=
  ⟨(remove_enoent exPyFS "g").1 rfl,
    (remove_enoent exPyFSErr "f").2.1 13 exPyFSErr
      ((remove_enoent exPyFSErr "f").2.2 13 exPyFSErr rfl (by decide)),
    (remove_enoent exPyFSErr "f").2.2 13 exPyFSErr rfl (by decide)⟩

/-- **C10**: `path_isin` is irreflexive — `path_isin p p` is `false` for
every path — and it returns `true` only when the normalized child strictly
extends the normalized parent joined with the path separator. -/
theorem path_isin_strict :
    (∀ p, path_isin p p = false) ∧
    (∀ c q, path_isin c q = true →
      ∃ rest, rest ≠ [] ∧
        (normalize_path c).data =
          (join_trailing (normalize_path q)).data ++ rest) := by
  constructor
  · intro p
    simp only [path_isin]
    by_cases hE : pyEndswith (normalize_path p) "/" = true
    · simp [join_trailing, hE]
    · have hj : join_trailing (normalize_path p) =
          normalize_path p ++ "/" := by
        simp [join_trailing, hE]
      rw [hj]
      have hsw : pyStartswith (normalize_path p)
          (normalize_path p ++ "/") = false := by
        cases hcb : pyStartswith (normalize_path p)
            (normalize_path p ++ "/")
        · rfl
        · exfalso
          rw [pyStartswith] at hcb
          have hpre := List.isPrefixOf_iff_prefix.mp hcb
          have hlen := List.IsPrefix.length_le hpre
          have : (normalize_path p ++ "/").data =
              (normalize_path p).data ++ ['/'] := rfl
          rw [this, List.length_append] at hlen
          simp at hlen
      rw [hsw, Bool.and_false]
  · intro c q hrun
    simp only [path_isin, Bool.and_eq_true, bne_iff_ne, ne_eq] at hrun
    obtain ⟨hneq, hsw⟩ := hrun
    rw [pyStartswith] at hsw
    obtain ⟨rest, hrest⟩ := List.isPrefixOf_iff_prefix.mp hsw
    refine ⟨rest, ?_, hrest.symm⟩
    intro hnil
    apply hneq
    apply String.ext
    rw [← hrest, hnil, List.append_nil]

/-- **C10 witness**: `path_isin "/a" "/a"` is `false`, and
`path_isin "/a/b" "/a"` being `true` exhibits the strict extension. -/
theorem path_isin_strict_witness :
    path_isin "/a" "/a" = false ∧
    ∃ rest, rest ≠ [] ∧
      (normalize_path "/a/b").data =
        (join_trailing (normalize_path "/a")).data ++ rest :=
  ⟨path_isin_strict.1 "/a", path_isin_strict.2 "/a/b" "/a" (by decide)⟩

end MindVC
